import Mathlib

/-!
Verification of the async-queue core and the settings validator of the
mpc-framework-common repository, against its natural-language specification.

The queue model is a shallow embedding of `AsyncQueue<T>` (AsyncQueue.ts):
the queue state carries the `messages` buffer, the parallel
`pendingResolves` / `pendingRejects` arrays (waiters are identified by the
numeric id allocated at registration), and the `closed` flag.  Around the
queue we track the surrounding runtime state that the class manipulates:
the abort listeners registered on external `AbortSignal`s, which signals
have been aborted, and the settlement state of each waiter's promise
(a promise settles at most once; later resolve/reject calls are no-ops).
All operations of the class body run synchronously in JS, so each method
is a pure function from world to world.
-/

namespace AQ

/-- The two error kinds thrown by the queue: `Queue is closed` and
`Stream stopped` (the cancellation error). -/
inductive QErr where
  | closedErr
  | cancelledErr
deriving DecidableEq, Repr

/-- The settlement of a waiter's promise. -/
inductive Outcome (T : Type) where
  | resolved (v : T)
  | rejected (e : QErr)
deriving DecidableEq, Repr

/-- The immediate result of a `pop` call: a synchronously returned value,
a synchronous failure, or a registered pending waiter. -/
inductive PopResult (T : Type) where
  | value (v : T)
  | errored (e : QErr)
  | pending (wid : Nat)
deriving DecidableEq, Repr

/-- The fields of the `AsyncQueue` class.  `pendingResolves` holds the
`wrapperFn` callbacks and `pendingRejects` the `reject` callbacks; both are
represented by the waiter id of the pop call that created them. -/
structure AsyncQueue (T : Type) where
  messages : List T
  pendingResolves : List Nat
  pendingRejects : List Nat
  closed : Bool
deriving DecidableEq, Repr

/-- The queue together with the runtime state it interacts with:
`listeners` is the list of `(signal, waiter)` abort-listener registrations
in registration order, `aborted` the signals that have fired, `settled`
the promise outcomes (absence = still pending), `wsig` records which
signal each waiter registered with, and `nextWaiter` allocates fresh ids. -/
structure QueueWorld (T : Type) where
  q : AsyncQueue T
  listeners : List (Nat × Nat)
  aborted : List Nat
  settled : List (Nat × Outcome T)
  wsig : List (Nat × Nat)
  nextWaiter : Nat
deriving DecidableEq, Repr

variable {T : Type}

/-- Association-list lookup by waiter id. -/
def alookup {β : Type} : List (Nat × β) → Nat → Option β
  | [], _ => none
  | (k, b) :: rest, r => if k = r then some b else alookup rest r

/-- Settle a promise: a promise that is already settled ignores further
resolve/reject calls. -/
def settle (m : List (Nat × Outcome T)) (r : Nat) (o : Outcome T) :
    List (Nat × Outcome T) :=
  if (alookup m r).isSome then m else (r, o) :: m

/-- Remove the first occurrence of an element, as `indexOf` + `splice`
does (no occurrence: unchanged, since `indexOf` returns `-1`). -/
def removeFirst : List Nat → Nat → List Nat
  | [], _ => []
  | x :: xs, r => if x = r then xs else x :: removeFirst xs r

/-- Model `abortSignal?.removeEventListener('abort', onAbort)` for the
listener belonging to waiter `r`. -/
def removeListenerFor (w : QueueWorld T) (r : Nat) : QueueWorld T :=
  match alookup w.wsig r with
  | none => w
  | some s =>
      { w with listeners := w.listeners.filter (fun p => decide (p ≠ (s, r))) }

/-- Whether `abortSignal?.aborted` is true for an optional signal. -/
def sigAborted (w : QueueWorld T) : Option Nat → Bool
  | none => false
  | some s => w.aborted.contains s

/-- The `push` method.  Throws (returns `false`) if the queue is closed.
Otherwise either shifts the oldest pending resolve and runs its
`wrapperFn` (which deregisters the abort listener, splices the matching
reject out of `pendingRejects` and resolves the promise), or appends the
message to the buffer. -/
def push (w : QueueWorld T) (v : T) : QueueWorld T × Bool :=
  if w.q.closed then (w, false)
  else
    match w.q.pendingResolves with
    | r :: rest =>
        let w1 := { w with q := { w.q with pendingResolves := rest } }
        let w2 := removeListenerFor w1 r
        let w3 := { w2 with
          q := { w2.q with pendingRejects := removeFirst w2.q.pendingRejects r } }
        let w4 := { w3 with settled := settle w3.settled r (Outcome.resolved v) }
        (w4, true)
    | [] =>
        ({ w with q := { w.q with messages := w.q.messages ++ [v] } }, true)

/-- The `pop` method.  Throws `Queue is closed` if closed; returns the
buffer head if available; rejects `Stream stopped` if the supplied signal
is already aborted; otherwise registers a fresh waiter: adds the abort
listener, then appends the waiter to both pending arrays.  The body of an
async function with no `await` runs synchronously, so the whole method is
one atomic state transition. -/
def pop (w : QueueWorld T) (sig : Option Nat) : QueueWorld T × PopResult T :=
  if w.q.closed then (w, PopResult.errored QErr.closedErr)
  else
    match w.q.messages with
    | m :: rest =>
        ({ w with q := { w.q with messages := rest } }, PopResult.value m)
    | [] =>
        if sigAborted w sig then (w, PopResult.errored QErr.cancelledErr)
        else if w.q.closed then (w, PopResult.errored QErr.closedErr)
        else
          let wid := w.nextWaiter
          let w1 :=
            match sig with
            | some s =>
                { w with listeners := w.listeners ++ [(s, wid)],
                         wsig := (wid, s) :: w.wsig }
            | none => w
          let w2 := { w1 with
            q := { w1.q with
              pendingResolves := w1.q.pendingResolves ++ [wid],
              pendingRejects := w1.q.pendingRejects ++ [wid] },
            nextWaiter := wid + 1 }
          (w2, PopResult.pending wid)

/-- The `onAbort` handler of waiter `r`: filters its `wrapperFn` out of
`pendingResolves`, splices its reject out of `pendingRejects`, removes
its abort listener and rejects its promise with `Stream stopped`. -/
def onAbort (w : QueueWorld T) (r : Nat) : QueueWorld T :=
  let w1 := { w with
    q := { w.q with
      pendingResolves := w.q.pendingResolves.filter (fun x => decide (x ≠ r)) } }
  let w2 := { w1 with
    q := { w1.q with pendingRejects := removeFirst w1.q.pendingRejects r } }
  let w3 := removeListenerFor w2 r
  { w3 with settled := settle w3.settled r (Outcome.rejected QErr.cancelledErr) }

/-- Abort an external signal: a signal aborts at most once; on the first
abort it fires the `abort` listeners registered on it, in registration
order. -/
def abortSig (w : QueueWorld T) (s : Nat) : QueueWorld T :=
  if w.aborted.contains s then w
  else
    let fired := (w.listeners.filter (fun p => decide (p.1 = s))).map (fun p => p.2)
    let w1 := { w with aborted := s :: w.aborted }
    fired.foldl onAbort w1

/-- The `close` method: a no-op when already closed; otherwise sets the
flag, captures the pending rejects, clears both pending arrays, rejects
every captured waiter with `Queue is closed`, and finally clears the
message buffer.  It does not touch the abort-listener registrations. -/
def close (w : QueueWorld T) : QueueWorld T :=
  if w.q.closed then w
  else
    let captured := w.q.pendingRejects
    let w1 := { w with
      q := { w.q with closed := true, pendingResolves := [], pendingRejects := [] } }
    let w2 := captured.foldl
      (fun acc r => { acc with settled := settle acc.settled r (Outcome.rejected QErr.closedErr) })
      w1
    { w2 with q := { w2.q with messages := [] } }

/-- The `isClosed` observer. -/
def isClosed (w : QueueWorld T) : Bool :=
  w.q.closed

/-- The externally triggerable operations on a queue world. -/
inductive Event (T : Type) where
  | push (v : T)
  | pop (sig : Option Nat)
  | close
  | abort (s : Nat)

/-- One external operation, discarding the returned result. -/
def step (w : QueueWorld T) : Event T → QueueWorld T
  | Event.push v => (push w v).1
  | Event.pop sig => (pop w sig).1
  | Event.close => close w
  | Event.abort s => abortSig w s

/-- Run a sequence of external operations. -/
def run (w : QueueWorld T) (es : List (Event T)) : QueueWorld T :=
  es.foldl step w

/-- The state of a freshly constructed `AsyncQueue` and its runtime. -/
def initWorld (T : Type) : QueueWorld T :=
  { q := { messages := [], pendingResolves := [], pendingRejects := [], closed := false },
    listeners := [], aborted := [], settled := [], wsig := [], nextWaiter := 0 }

/-- Push a whole list of values, left to right. -/
def pushAll (w : QueueWorld T) (vs : List T) : QueueWorld T :=
  vs.foldl (fun acc v => (push acc v).1) w

/-- Pop `n` times with no cancellation signal, collecting the results. -/
def popN : QueueWorld T → Nat → List (PopResult T)
  | _, 0 => []
  | w, n + 1 => (pop w none).2 :: popN (pop w none).1 n

/-- How the `stream` loop ends when an iteration fails. -/
inductive LoopExit where
  | silent
  | rethrown (e : QErr)
deriving DecidableEq, Repr

/-- The catch clause of the `stream` loop: only an error whose message is
`Stream stopped` exits the loop gracefully; every other error — including
`Queue is closed` — is rethrown inside the fire-and-forget loop. -/
def streamLoopExitOnPopFailure (e : QErr) : LoopExit :=
  if e = QErr.cancelledErr then LoopExit.silent else LoopExit.rethrown e

/-- One iteration of the `stream` loop: pop, and either hand the value to
the handler (second component `some v`), end the loop (third component),
or suspend on a pending waiter. -/
def streamIter (w : QueueWorld T) (sig : Option Nat) :
    QueueWorld T × Option T × Option LoopExit :=
  match pop w sig with
  | (w', PopResult.value v) => (w', some v, none)
  | (w', PopResult.errored e) => (w', none, some (streamLoopExitOnPopFailure e))
  | (w', PopResult.pending _) => (w', none, none)

end AQ

/-!
Shallow embedding of `checkSettingsValid` (checkSettingsValid.ts).  A
`Record<string, number>` only contributes its key list here (JS object
keys are pairwise distinct, but only the derived `Set` is ever used, so
no distinctness assumption is needed).  Error values are represented by
which of the five `new Error(...)` sites produced them.
-/

namespace MPC

/-- The part of a `Circuit` the validator reads:
`Object.keys(circuit.info.input_name_to_wire_index)` and
`Object.keys(circuit.info.output_name_to_wire_index)`. -/
structure Circuit where
  inputNames : List String
  outputNames : List String
deriving DecidableEq, Repr

/-- One participant entry of `MpcSettings`; `name` is optional in the
source type (`name?: string`). -/
structure MpcParticipantSettings where
  name : Option String
  inputs : List String
  outputs : List String
deriving DecidableEq, Repr

/-- The five error sites of `checkSettingsValid`. -/
inductive CheckError where
  | duplicateInput (n : String)
  | inputsMismatch
  | outputNotInCircuit (n : String)
  | participantNotFound (n : String)
  | inputKeysMismatch
deriving DecidableEq, Repr

/-- The `areSetsEqual` helper: equal sizes and every element of `a` is in
`b`. -/
def areSetsEqual (a b : Finset String) : Bool :=
  decide (a.card = b.card) && decide (a ⊆ b)

/-- The inner loop of the duplicate-input check: walk one participant's
input list, failing on a name already seen, otherwise accumulating it. -/
def addInputs : Finset String → List String → Except CheckError (Finset String)
  | seen, [] => Except.ok seen
  | seen, i :: rest =>
      if i ∈ seen then Except.error (CheckError.duplicateInput i)
      else addInputs (insert i seen) rest

/-- The outer loop of the duplicate-input check over all participants. -/
def collectInputs : Finset String → List MpcParticipantSettings →
    Except CheckError (Finset String)
  | seen, [] => Except.ok seen
  | seen, p :: ps =>
      match addInputs seen p.inputs with
      | Except.error e => Except.error e
      | Except.ok seen' => collectInputs seen' ps

/-- First output name of a list that is not a circuit output. -/
def firstBadOutputIn (co : Finset String) : List String → Option String
  | [] => none
  | o :: rest => if o ∈ co then firstBadOutputIn co rest else some o

/-- First participant output name that is not a circuit output. -/
def firstBadOutput (co : Finset String) : List MpcParticipantSettings → Option String
  | [] => none
  | p :: ps =>
      match firstBadOutputIn co p.outputs with
      | some o => some o
      | none => firstBadOutput co ps

/-- The `mpcSettings.find` call: a participant matches when its name —
defaulting to its index rendered as a string (`participant.name ??
i.toString()`) — equals the caller's name.  `k` is the index of the first
list element. -/
def findParticipantFrom (name : String) : List MpcParticipantSettings → Nat →
    Option MpcParticipantSettings
  | [], _ => none
  | p :: ps, k =>
      if p.name.getD (toString k) = name then some p
      else findParticipantFrom name ps (k + 1)

/-- The `checkSettingsValid` function.  `inputKeys` is
`Object.keys(input)`.  Returns `none` for `undefined` (valid settings). -/
def checkSettingsValid (c : Circuit) (ms : List MpcParticipantSettings)
    (name : String) (inputKeys : List String) : Option CheckError :=
  let circuitInputs := c.inputNames.toFinset
  let circuitOutputs := c.outputNames.toFinset
  match collectInputs ∅ ms with
  | Except.error e => some e
  | Except.ok participantInputs =>
      if ! areSetsEqual participantInputs circuitInputs then
        some CheckError.inputsMismatch
      else
        match firstBadOutput circuitOutputs ms with
        | some o => some (CheckError.outputNotInCircuit o)
        | none =>
            match findParticipantFrom name ms 0 with
            | none => some (CheckError.participantNotFound name)
            | some p =>
                if ! areSetsEqual inputKeys.toFinset p.inputs.toFinset then
                  some CheckError.inputKeysMismatch
                else none

/-- Condition (1) exactly as the claim words it: some input name is
claimed by more than one participant (two distinct participant
positions). -/
def dupAcrossParticipants (ms : List MpcParticipantSettings) : Prop :=
  ∃ i j : Fin ms.length, i ≠ j ∧ ∃ x ∈ (ms.get i).inputs, x ∈ (ms.get j).inputs

/-- Conditions (2)–(5) of the claim, shared by the claimed and the
amended error characterisation. -/
def otherErrorConds (c : Circuit) (ms : List MpcParticipantSettings)
    (name : String) (inputKeys : List String) : Prop :=
  (ms.flatMap MpcParticipantSettings.inputs).toFinset ≠ c.inputNames.toFinset
  ∨ (∃ p ∈ ms, ∃ o ∈ p.outputs, o ∉ c.outputNames.toFinset)
  ∨ findParticipantFrom name ms 0 = none
  ∨ (∃ p ∈ ms, findParticipantFrom name ms 0 = some p
      ∧ inputKeys.toFinset ≠ p.inputs.toFinset)

/-- The claim's error characterisation, with condition (1) read as it is
written: a name claimed by more than one participant. -/
def claimShouldError (c : Circuit) (ms : List MpcParticipantSettings)
    (name : String) (inputKeys : List String) : Prop :=
  dupAcrossParticipants ms ∨ otherErrorConds c ms name inputKeys

/-- The amended error characterisation.  Condition (1) is corrected to:
some input name occurs more than once across the concatenation of all
participants' input lists (which also covers a repeat inside a single
participant's list). -/
def shouldError (c : Circuit) (ms : List MpcParticipantSettings)
    (name : String) (inputKeys : List String) : Prop :=
  ¬ (ms.flatMap MpcParticipantSettings.inputs).Nodup
  ∨ otherErrorConds c ms name inputKeys

end MPC

namespace AQ

variable {T : Type}

lemma removeListenerFor_q (w : QueueWorld T) (r : Nat) :
    (removeListenerFor w r).q = w.q := by
  unfold removeListenerFor
  split <;> rfl

lemma removeListenerFor_settled (w : QueueWorld T) (r : Nat) :
    (removeListenerFor w r).settled = w.settled := by
  unfold removeListenerFor
  split <;> rfl

lemma push_no_waiters (w : QueueWorld T) (v : T) (hc : w.q.closed = false)
    (hr : w.q.pendingResolves = []) :
    (push w v).1.q.messages = w.q.messages ++ [v] ∧
    (push w v).1.q.pendingResolves = [] ∧ (push w v).1.q.closed = false := by
  simp [push, hc, hr]

lemma pushAll_no_waiters (vs : List T) (w : QueueWorld T) (hc : w.q.closed = false)
    (hr : w.q.pendingResolves = []) :
    (pushAll w vs).q.messages = w.q.messages ++ vs ∧
    (pushAll w vs).q.pendingResolves = [] ∧ (pushAll w vs).q.closed = false := by
  induction vs generalizing w with
  | nil => exact ⟨by simp [pushAll], hr, hc⟩
  | cons v tl ih =>
      have h1 := push_no_waiters w v hc hr
      have h2 := ih (push w v).1 h1.2.2 h1.2.1
      have heq : pushAll w (v :: tl) = pushAll (push w v).1 tl := rfl
      refine ⟨?_, heq ▸ h2.2.1, heq ▸ h2.2.2⟩
      rw [heq, h2.1, h1.1, List.append_assoc, List.singleton_append]

lemma popN_drain (vs : List T) (w : QueueWorld T) (hc : w.q.closed = false)
    (hm : w.q.messages = vs) :
    popN w vs.length = vs.map PopResult.value := by
  induction vs generalizing w with
  | nil => simp [popN]
  | cons v tl ih =>
      have hpop : pop w none =
          ({ w with q := { w.q with messages := tl } }, PopResult.value v) := by
        simp [pop, hc, hm]
      have htl := ih { w with q := { w.q with messages := tl } } hc rfl
      simp [popN, hpop, htl]

/-- C1: starting from an open queue with empty buffer and no pending
waiters, pushing the values `v1..vn` and then popping `n` times with no
cancellation returns `v1..vn` in exactly that order (FIFO delivery in
push order). -/
theorem fifo_order (w : QueueWorld T) (vs : List T)
    (hc : w.q.closed = false) (hr : w.q.pendingResolves = [])
    (hm : w.q.messages = []) :
    popN (pushAll w vs) vs.length = vs.map PopResult.value := by
  have h := pushAll_no_waiters vs w hc hr
  exact popN_drain vs (pushAll w vs) h.2.2 (by rw [h.1, hm, List.nil_append])

/-- Witness for `fifo_order` at a concrete queue and value sequence. -/
theorem fifo_order_witness :
    popN (pushAll (initWorld Nat) [1, 2, 3]) 3 =
      [PopResult.value 1, PopResult.value 2, PopResult.value 3] :=
  fifo_order (initWorld Nat) [1, 2, 3] rfl rfl rfl

lemma closeFold_q (l : List Nat) (w : QueueWorld T) :
    (l.foldl
      (fun acc r => { acc with settled := settle acc.settled r (Outcome.rejected QErr.closedErr) })
      w).q = w.q := by
  induction l generalizing w with
  | nil => rfl
  | cons x xs ih => simpa using ih { w with settled := settle w.settled x (Outcome.rejected QErr.closedErr) }

lemma close_of_closed (w : QueueWorld T) (h : w.q.closed = true) : close w = w := by
  unfold close
  rw [if_pos h]

lemma close_closed (w : QueueWorld T) : (close w).q.closed = true := by
  by_cases h : w.q.closed = true
  · rw [close_of_closed w h]; exact h
  · unfold close
    rw [if_neg h]
    simp [closeFold_q]

lemma onAbort_closed (w : QueueWorld T) (r : Nat) :
    (onAbort w r).q.closed = w.q.closed := by
  simp [onAbort, removeListenerFor_q]

lemma foldl_onAbort_closed (l : List Nat) (w : QueueWorld T) :
    (l.foldl onAbort w).q.closed = w.q.closed := by
  induction l generalizing w with
  | nil => rfl
  | cons x xs ih => rw [List.foldl_cons, ih, onAbort_closed]

lemma step_closed_true (w : QueueWorld T) (e : Event T) (h : w.q.closed = true) :
    (step w e).q.closed = true := by
  cases e with
  | push v => simp [step, push, h]
  | pop sig => simp [step, pop, h]
  | close => rw [step, close_of_closed w h]; exact h
  | abort s =>
      simp only [step, abortSig]
      split
      · exact h
      · rw [foldl_onAbort_closed]; exact h

lemma run_closed_true (w : QueueWorld T) (es : List (Event T)) (h : w.q.closed = true) :
    (run w es).q.closed = true := by
  induction es generalizing w with
  | nil => exact h
  | cons e tl ih => exact ih (step w e) (step_closed_true w e h)

/-- C4: `close` is idempotent — a second call leaves the state exactly as
the first call left it — and `isClosed` is true after the first `close`
and remains true under every later sequence of operations. -/
theorem close_idempotent :
    (∀ w : QueueWorld T, close (close w) = close w) ∧
    (∀ (w : QueueWorld T) (es : List (Event T)), isClosed (run (close w) es) = true) :=
  ⟨fun w => close_of_closed (close w) (close_closed w),
   fun w es => run_closed_true (close w) es (close_closed w)⟩

/-- C5: once the queue is closed, every `push` throws `Queue is closed`
with no state change, and every new `pop` fails `Queue is closed`
immediately, with no state change — in particular no waiter is
registered and nothing suspends. -/
theorem post_close_rejection (w : QueueWorld T) (h : isClosed w = true) :
    (∀ v : T, push w v = (w, false)) ∧
    (∀ sig : Option Nat, pop w sig = (w, PopResult.errored QErr.closedErr)) := by
  have hc : w.q.closed = true := h
  exact ⟨fun v => by simp [push, hc], fun sig => by simp [pop, hc]⟩

/-- Witness for `post_close_rejection` on a freshly closed queue. -/
theorem post_close_rejection_witness :
    push (close (initWorld Nat)) 7 = (close (initWorld Nat), false) :=
  (post_close_rejection (close (initWorld Nat)) rfl).1 7

lemma alookup_settle_ne (m : List (Nat × Outcome T)) (r r' : Nat) (o : Outcome T)
    (h : r' ≠ r) : alookup (settle m r o) r' = alookup m r' := by
  unfold settle
  split
  · rfl
  · simp [alookup, Ne.symm h]

lemma alookup_settle_self (m : List (Nat × Outcome T)) (r : Nat) (o : Outcome T)
    (h : alookup m r = none) : alookup (settle m r o) r = some o := by
  unfold settle
  rw [h]
  simp [alookup]

lemma onAbort_settled (w : QueueWorld T) (r : Nat) :
    (onAbort w r).settled = settle w.settled r (Outcome.rejected QErr.cancelledErr) := by
  simp [onAbort, removeListenerFor_settled]

/-- The scenario of C6: three pending pops with signals 1, 2, 3; signal 2
fires; then `"u"` and `"v"` are pushed. -/
def c6world : QueueWorld String :=
  let w1 := (pop (initWorld String) (some 1)).1
  let w2 := (pop w1 (some 2)).1
  let w3 := (pop w2 (some 3)).1
  let w4 := abortSig w3 2
  let w5 := (push w4 "u").1
  (push w5 "v").1

/-- C6: in the concrete scenario, P1 resolves `"u"`, P3 resolves `"v"`
and P2 rejects `Cancelled`; in general, cancelling one pending pop leaves
every other pending pop's waiter-list membership and settlement
untouched, and a push resolves the earliest remaining waiter. -/
theorem cancellation_isolation :
    (alookup c6world.settled 0 = some (Outcome.resolved "u") ∧
     alookup c6world.settled 2 = some (Outcome.resolved "v") ∧
     alookup c6world.settled 1 = some (Outcome.rejected QErr.cancelledErr)) ∧
    (∀ (S : Type) (w : QueueWorld S) (r r' : Nat), r' ≠ r →
      ((r' ∈ (onAbort w r).q.pendingResolves ↔ r' ∈ w.q.pendingResolves) ∧
       alookup (onAbort w r).settled r' = alookup w.settled r')) ∧
    (∀ (S : Type) (w : QueueWorld S) (v : S) (r : Nat) (rest : List Nat),
      w.q.closed = false → w.q.pendingResolves = r :: rest →
      alookup w.settled r = none →
      (push w v).1.q.pendingResolves = rest ∧
      alookup (push w v).1.settled r = some (Outcome.resolved v)) := by
  refine ⟨⟨rfl, rfl, rfl⟩, ?_, ?_⟩
  · intro S w r r' h
    constructor
    · simp [onAbort, removeListenerFor_q, List.mem_filter, h]
    · rw [onAbort_settled, alookup_settle_ne _ _ _ _ h]
  · intro S w v r rest hc hr hs
    constructor
    · simp [push, hc, hr, removeListenerFor_q]
    · simp only [push, hc, hr]
      simpa [removeListenerFor_settled] using alookup_settle_self w.settled r (Outcome.resolved v) hs

/-- Witness for `cancellation_isolation` at a concrete world. -/
theorem cancellation_isolation_witness :
    alookup (onAbort (initWorld Nat) 3).settled 0 = alookup (initWorld Nat).settled 0 :=
  (cancellation_isolation.2.1 Nat (initWorld Nat) 3 0 (by decide)).2

/-- C7: evaluation at the failing input.  A single pending pop registered
with abort signal 5 is rejected with `Queue is closed` by `close()` and
removed from both pending arrays, yet its abort listener is still
attached to the signal afterwards — `close` never calls
`removeEventListener`. -/
theorem close_leaves_listener_attached :
    (close (pop (initWorld Nat) (some 5)).1).q.pendingResolves = [] ∧
    (close (pop (initWorld Nat) (some 5)).1).q.pendingRejects = [] ∧
    alookup (close (pop (initWorld Nat) (some 5)).1).settled 0 =
      some (Outcome.rejected QErr.closedErr) ∧
    (close (pop (initWorld Nat) (some 5)).1).listeners = [(5, 0)] ∧
    (close (pop (initWorld Nat) (some 5)).1).listeners ≠ [] :=
  ⟨rfl, rfl, rfl, rfl, by decide⟩

/-- C8 counterexample: after `close`, the stream loop's pop failure is
`Queue is closed`, and the loop's catch clause does not end silently on
it — it rethrows — whereas the cancellation failure after `stop()` is
swallowed silently. -/
theorem stream_closed_rethrows :
    (streamIter (close (initWorld Nat)) (some 0)).2.2 ≠ some LoopExit.silent ∧
    (streamIter (close (initWorld Nat)) (some 0)).2.2 =
      some (LoopExit.rethrown QErr.closedErr) ∧
    (streamIter (abortSig (initWorld Nat) 4) (some 4)).2.2 = some LoopExit.silent :=
  ⟨by decide, rfl, rfl⟩

/-- C8 amended: on a `Cancelled` pop failure the loop ends silently; on a
`QueueClosed` pop failure the loop stops invoking the handler (no value
is dispatched) but rethrows the error inside the fire-and-forget loop
instead of ending silently. -/
theorem stream_exit_behavior :
    streamLoopExitOnPopFailure QErr.cancelledErr = LoopExit.silent ∧
    streamLoopExitOnPopFailure QErr.closedErr = LoopExit.rethrown QErr.closedErr ∧
    (streamIter (close (initWorld Nat)) (some 0)).2.1 = none ∧
    (streamIter (close (initWorld Nat)) (some 0)).2.2 =
      some (LoopExit.rethrown QErr.closedErr) :=
  ⟨rfl, rfl, rfl, rfl⟩

end AQ

namespace AQ

variable {T : Type}

lemma removeListenerFor_nextWaiter (w : QueueWorld T) (r : Nat) :
    (removeListenerFor w r).nextWaiter = w.nextWaiter := by
  unfold removeListenerFor
  split <;> rfl

/-- Combined state invariant of every reachable queue world: buffer and
waiter list are not both non-empty, the two pending arrays stay equal,
waiter ids are distinct, and all pending ids are below the allocator. -/
def QInv (w : QueueWorld T) : Prop :=
  (w.q.messages = [] ∨ w.q.pendingResolves = []) ∧
  w.q.pendingRejects = w.q.pendingResolves ∧
  w.q.pendingResolves.Nodup ∧
  ∀ r ∈ w.q.pendingResolves, r < w.nextWaiter

lemma push_waiter_q (w : QueueWorld T) (v : T) (r : Nat) (rest : List Nat)
    (hc : w.q.closed = false) (hr : w.q.pendingResolves = r :: rest) :
    (push w v).1.q.messages = w.q.messages ∧
    (push w v).1.q.pendingResolves = rest ∧
    (push w v).1.q.pendingRejects = removeFirst w.q.pendingRejects r ∧
    (push w v).1.q.closed = false ∧
    (push w v).1.nextWaiter = w.nextWaiter ∧
    (push w v).1.settled = settle w.settled r (Outcome.resolved v) := by
  simp [push, hc, hr, removeListenerFor_q, removeListenerFor_nextWaiter,
    removeListenerFor_settled]

lemma push_inv (w : QueueWorld T) (v : T) (h : QInv w) : QInv (push w v).1 := by
  obtain ⟨h1, h2, h3, h4⟩ := h
  by_cases hc : w.q.closed = true
  · have hp : push w v = (w, false) := by simp [push, hc]
    rw [hp]; exact ⟨h1, h2, h3, h4⟩
  · have hc' : w.q.closed = false := by simpa using hc
    cases hr : w.q.pendingResolves with
    | nil =>
        have hq : (push w v).1.q.pendingResolves = [] ∧
            (push w v).1.q.pendingRejects = w.q.pendingRejects ∧
            (push w v).1.nextWaiter = w.nextWaiter := by
          simp [push, hc', hr]
        refine ⟨Or.inr hq.1, ?_, ?_, ?_⟩
        · rw [hq.2.1, hq.1, h2, hr]
        · rw [hq.1]; exact List.nodup_nil
        · rw [hq.1]; intro x hx; cases hx
    | cons r rest =>
        have hq := push_waiter_q w v r rest hc' hr
        have hmsg : w.q.messages = [] := by
          rcases h1 with h | h
          · exact h
          · rw [hr] at h; cases h
        refine ⟨Or.inl (hq.1.trans hmsg), ?_, ?_, ?_⟩
        · rw [hq.2.2.1, hq.2.1, h2, hr]
          simp [removeFirst]
        · rw [hq.2.1]
          exact (hr ▸ h3 : (r :: rest).Nodup).of_cons
        · rw [hq.2.1, hq.2.2.2.2.1]
          intro x hx
          exact h4 x (by rw [hr]; exact List.mem_cons_of_mem r hx)

lemma pop_register_q (w : QueueWorld T) (sig : Option Nat)
    (hc : w.q.closed = false) (hm : w.q.messages = [])
    (ha : sigAborted w sig = false) :
    (pop w sig).1.q.messages = [] ∧
    (pop w sig).1.q.pendingResolves = w.q.pendingResolves ++ [w.nextWaiter] ∧
    (pop w sig).1.q.pendingRejects = w.q.pendingRejects ++ [w.nextWaiter] ∧
    (pop w sig).1.q.closed = false ∧
    (pop w sig).1.nextWaiter = w.nextWaiter + 1 := by
  cases sig with
  | none => simp [pop, hc, hm, ha]
  | some s =>
      have hs : s ∉ w.aborted := by simpa [sigAborted] using ha
      simp [pop, hc, hm, sigAborted, hs]

lemma pop_inv (w : QueueWorld T) (sig : Option Nat) (h : QInv w) : QInv (pop w sig).1 := by
  obtain ⟨h1, h2, h3, h4⟩ := h
  by_cases hc : w.q.closed = true
  · have hp : pop w sig = (w, PopResult.errored QErr.closedErr) := by simp [pop, hc]
    rw [hp]; exact ⟨h1, h2, h3, h4⟩
  · have hc' : w.q.closed = false := by simpa using hc
    cases hm : w.q.messages with
    | cons m rest =>
        have hp : (pop w sig).1 = { w with q := { w.q with messages := rest } } := by
          simp [pop, hc', hm]
        have hres : w.q.pendingResolves = [] := by
          rcases h1 with h | h
          · rw [hm] at h; cases h
          · exact h
        rw [hp]
        exact ⟨Or.inr hres, h2, h3, h4⟩
    | nil =>
        by_cases ha : sigAborted w sig = true
        · have hp : (pop w sig).1 = w := by simp [pop, hc', hm, ha]
          rw [hp]; exact ⟨h1, h2, h3, h4⟩
        · have ha' : sigAborted w sig = false := by simpa using ha
          have hq := pop_register_q w sig hc' hm ha'
          have hnotin : w.nextWaiter ∉ w.q.pendingResolves := fun hmem =>
            absurd (h4 _ hmem) (lt_irrefl _)
          refine ⟨Or.inl hq.1, ?_, ?_, ?_⟩
          · rw [hq.2.2.1, hq.2.1, h2]
          · rw [hq.2.1, List.nodup_append]
            refine ⟨h3, List.nodup_singleton _, ?_⟩
            intro a ha1 ha2
            rw [List.mem_singleton] at ha2
            exact hnotin (ha2 ▸ ha1)
          · rw [hq.2.1, hq.2.2.2.2]
            intro x hx
            rcases List.mem_append.mp hx with hx | hx
            · exact Nat.lt_succ_of_lt (h4 x hx)
            · rw [List.mem_singleton.mp hx]; exact Nat.lt_succ_self _

lemma onAbort_q (w : QueueWorld T) (r : Nat) :
    (onAbort w r).q.messages = w.q.messages ∧
    (onAbort w r).q.pendingResolves = w.q.pendingResolves.filter (fun x => decide (x ≠ r)) ∧
    (onAbort w r).q.pendingRejects = removeFirst w.q.pendingRejects r ∧
    (onAbort w r).q.closed = w.q.closed ∧
    (onAbort w r).nextWaiter = w.nextWaiter := by
  simp [onAbort, removeListenerFor_q, removeListenerFor_nextWaiter]

lemma filter_ne_of_not_mem (l : List Nat) (r : Nat) (h : r ∉ l) :
    l.filter (fun x => decide (x ≠ r)) = l := by
  induction l with
  | nil => rfl
  | cons x xs ih =>
      rw [List.mem_cons, not_or] at h
      rw [List.filter_cons]
      simp only [decide_eq_true_eq]
      rw [if_pos (Ne.symm h.1)]
      rw [ih h.2]

lemma filter_ne_eq_removeFirst (l : List Nat) (r : Nat) (h : l.Nodup) :
    l.filter (fun x => decide (x ≠ r)) = removeFirst l r := by
  induction l with
  | nil => rfl
  | cons x xs ih =>
      rw [List.nodup_cons] at h
      by_cases hx : x = r
      · subst hx
        simp only [removeFirst, if_pos rfl, List.filter_cons, decide_eq_true_eq,
          ne_eq, not_true_eq_false, if_false]
        exact filter_ne_of_not_mem xs x h.1
      · simp only [removeFirst, if_neg hx, List.filter_cons, decide_eq_true_eq]
        rw [if_pos hx, ih h.2]

lemma onAbort_inv (w : QueueWorld T) (r : Nat) (h : QInv w) : QInv (onAbort w r) := by
  obtain ⟨h1, h2, h3, h4⟩ := h
  have hq := onAbort_q w r
  refine ⟨?_, ?_, ?_, ?_⟩
  · rcases h1 with h | h
    · exact Or.inl (hq.1.trans h)
    · exact Or.inr (by rw [hq.2.1, h]; rfl)
  · rw [hq.2.2.1, hq.2.1, h2, filter_ne_eq_removeFirst _ _ h3]
  · rw [hq.2.1]; exact h3.filter _
  · rw [hq.2.1, hq.2.2.2.2]
    intro x hx
    exact h4 x (List.mem_of_mem_filter hx)

lemma foldl_onAbort_inv (l : List Nat) (w : QueueWorld T) (h : QInv w) :
    QInv (l.foldl onAbort w) := by
  induction l generalizing w with
  | nil => exact h
  | cons x xs ih => exact ih (onAbort w x) (onAbort_inv w x h)

lemma abortSig_inv (w : QueueWorld T) (s : Nat) (h : QInv w) : QInv (abortSig w s) := by
  unfold abortSig
  split
  · exact h
  · exact foldl_onAbort_inv _ _ h

lemma close_inv (w : QueueWorld T) (h : QInv w) : QInv (close w) := by
  by_cases hc : w.q.closed = true
  · rw [close_of_closed w hc]; exact h
  · unfold close
    rw [if_neg hc]
    refine ⟨Or.inr ?_, ?_, ?_, ?_⟩ <;> simp [closeFold_q]

lemma step_inv (w : QueueWorld T) (e : Event T) (h : QInv w) : QInv (step w e) := by
  cases e with
  | push v => exact push_inv w v h
  | pop sig => exact pop_inv w sig h
  | close => exact close_inv w h
  | abort s => exact abortSig_inv w s h

lemma initWorld_inv : QInv (initWorld T) :=
  ⟨Or.inl rfl, rfl, List.nodup_nil, by intro r hr; cases hr⟩

lemma run_inv (es : List (Event T)) : QInv (run (initWorld T) es) := by
  suffices h : ∀ w : QueueWorld T, QInv w → QInv (run w es) from h _ initWorld_inv
  induction es with
  | nil => exact fun w h => h
  | cons e tl ih => exact fun w h => ih (step w e) (step_inv w e h)

/-- C2: in every state reachable from a fresh queue by any sequence of
operations, the buffer and the waiter lists are never both non-empty;
moreover a push on an open queue either appends to the buffer tail
(when no waiter is pending) or fulfills the oldest waiter directly,
bypassing the buffer — never both. -/
theorem buffer_waiters_exclusive (T : Type) :
    (∀ es : List (Event T),
      (run (initWorld T) es).q.messages = [] ∨
      ((run (initWorld T) es).q.pendingResolves = [] ∧
       (run (initWorld T) es).q.pendingRejects = [])) ∧
    (∀ (w : QueueWorld T) (v : T), w.q.closed = false →
      (w.q.pendingResolves = [] →
        (push w v).1.q.messages = w.q.messages ++ [v] ∧
        (push w v).1.q.pendingResolves = []) ∧
      (∀ (r : Nat) (rest : List Nat), w.q.pendingResolves = r :: rest →
        (push w v).1.q.messages = w.q.messages ∧
        (push w v).1.q.pendingResolves = rest ∧
        (push w v).1.settled = settle w.settled r (Outcome.resolved v))) := by
  constructor
  · intro es
    have h := run_inv (T := T) es
    rcases h.1 with hm | hr
    · exact Or.inl hm
    · exact Or.inr ⟨hr, h.2.1.trans hr⟩
  · intro w v hc
    constructor
    · intro hr
      have h := push_no_waiters w v hc hr
      exact ⟨h.1, h.2.1⟩
    · intro r rest hr
      have hq := push_waiter_q w v r rest hc hr
      exact ⟨hq.1, hq.2.1, hq.2.2.2.2.2⟩

/-- Witness for `buffer_waiters_exclusive` at a fresh queue. -/
theorem buffer_waiters_exclusive_witness :
    (push (initWorld Nat) 5).1.q.messages = (initWorld Nat).q.messages ++ [5] ∧
    (push (initWorld Nat) 5).1.q.pendingResolves = [] :=
  ((buffer_waiters_exclusive Nat).2 (initWorld Nat) 5 rfl).1 rfl

end AQ

namespace AQ

variable {T : Type}

lemma foldl_onAbort_messages (l : List Nat) (w : QueueWorld T) :
    (l.foldl onAbort w).q.messages = w.q.messages := by
  induction l generalizing w with
  | nil => rfl
  | cons x xs ih => rw [List.foldl_cons, ih, (onAbort_q w x).1]

lemma step_closed_messages (w : QueueWorld T) (e : Event T)
    (hc : w.q.closed = true) (hm : w.q.messages = []) :
    (step w e).q.closed = true ∧ (step w e).q.messages = [] := by
  cases e with
  | push v => simp [step, push, hc, hm]
  | pop sig => simp [step, pop, hc, hm]
  | close => rw [step, close_of_closed w hc]; exact ⟨hc, hm⟩
  | abort s =>
      refine ⟨step_closed_true w (Event.abort s) hc, ?_⟩
      simp only [step, abortSig]
      split
      · exact hm
      · rw [foldl_onAbort_messages]; exact hm

lemma run_closed_messages (w : QueueWorld T) (es : List (Event T))
    (hc : w.q.closed = true) (hm : w.q.messages = []) :
    (run w es).q.closed = true ∧ (run w es).q.messages = [] := by
  induction es generalizing w with
  | nil => exact ⟨hc, hm⟩
  | cons e tl ih =>
      have h := step_closed_messages w e hc hm
      exact ih (step w e) h.1 h.2

/-- C3: when `close()` first runs on an open queue holding three buffered
values and two pending pops, both pending pops are rejected with
`Queue is closed`, the three buffered values are discarded (the buffer is
empty and stays empty: after any later sequence of operations every pop
fails `Queue is closed` and every push throws, so the values are never
delivered), and `isClosed()` is true. -/
theorem close_scenario (T : Type) (w : QueueWorld T) (v1 v2 v3 : T) (r1 r2 : Nat)
    (hm : w.q.messages = [v1, v2, v3])
    (hres : w.q.pendingResolves = [r1, r2])
    (hrej : w.q.pendingRejects = [r1, r2])
    (hne : r1 ≠ r2) (hc : w.q.closed = false)
    (hs1 : alookup w.settled r1 = none) (hs2 : alookup w.settled r2 = none) :
    alookup (close w).settled r1 = some (Outcome.rejected QErr.closedErr) ∧
    alookup (close w).settled r2 = some (Outcome.rejected QErr.closedErr) ∧
    (close w).q.messages = [] ∧
    isClosed (close w) = true ∧
    (∀ es : List (Event T),
      (run (close w) es).q.messages = [] ∧
      (∀ sig, (pop (run (close w) es) sig).2 = PopResult.errored QErr.closedErr) ∧
      (∀ v, (push (run (close w) es) v).2 = false)) := by
  have hcne : ¬ w.q.closed = true := by simp [hc]
  have hsettled : (close w).settled =
      settle (settle w.settled r1 (Outcome.rejected QErr.closedErr)) r2
        (Outcome.rejected QErr.closedErr) := by
    unfold close
    rw [if_neg hcne]
    simp [hrej]
  have hmsg : (close w).q.messages = [] := by
    unfold close
    rw [if_neg hcne]
  have h1 : alookup (close w).settled r1 = some (Outcome.rejected QErr.closedErr) := by
    rw [hsettled, alookup_settle_ne _ _ _ _ hne,
      alookup_settle_self _ _ _ hs1]
  have h2 : alookup (close w).settled r2 = some (Outcome.rejected QErr.closedErr) := by
    rw [hsettled]
    have : alookup (settle w.settled r1 (Outcome.rejected QErr.closedErr)) r2 = none := by
      rw [alookup_settle_ne _ _ _ _ (Ne.symm hne)]; exact hs2
    rw [alookup_settle_self _ _ _ this]
  refine ⟨h1, h2, hmsg, close_closed w, ?_⟩
  intro es
  have hrun := run_closed_messages (close w) es (close_closed w) hmsg
  exact ⟨hrun.2,
    fun sig => by simp [pop, hrun.1],
    fun v => by simp [push, hrun.1]⟩

/-- Concrete pre-close state for the C3 witness: three buffered values and
two pending pops. -/
def c3world : QueueWorld Nat :=
  { q := { messages := [10, 20, 30], pendingResolves := [0, 1],
           pendingRejects := [0, 1], closed := false },
    listeners := [], aborted := [], settled := [], wsig := [], nextWaiter := 2 }

/-- Witness for `close_scenario` at a concrete state. -/
theorem close_scenario_witness :
    alookup (close c3world).settled 0 = some (Outcome.rejected QErr.closedErr) :=
  (close_scenario Nat c3world 10 20 30 0 1 rfl rfl rfl (by decide) rfl rfl rfl).1

end AQ

namespace MPC

lemma areSetsEqual_iff (a b : Finset String) : areSetsEqual a b = true ↔ a = b := by
  unfold areSetsEqual
  constructor
  · intro h
    rw [Bool.and_eq_true, decide_eq_true_eq, decide_eq_true_eq] at h
    exact Finset.eq_of_subset_of_card_le h.2 (le_of_eq h.1.symm)
  · rintro rfl
    simp

lemma addInputs_ok_iff (l : List String) (seen : Finset String) :
    (∃ s, addInputs seen l = Except.ok s) ↔ l.Nodup ∧ ∀ x ∈ l, x ∉ seen := by
  induction l generalizing seen with
  | nil => simp [addInputs]
  | cons i rest ih =>
      constructor
      · rintro ⟨s, hs⟩
        simp only [addInputs] at hs
        by_cases hi : i ∈ seen
        · rw [if_pos hi] at hs; cases hs
        · rw [if_neg hi] at hs
          have h := (ih (insert i seen)).mp ⟨s, hs⟩
          refine ⟨List.nodup_cons.mpr ⟨?_, h.1⟩, ?_⟩
          · intro hmem
            exact h.2 i hmem (Finset.mem_insert_self i seen)
          · intro x hx
            rcases List.mem_cons.mp hx with rfl | hx
            · exact hi
            · intro hxs
              exact h.2 x hx (Finset.mem_insert_of_mem hxs)
      · rintro ⟨hnd, hall⟩
        have hi : i ∉ seen := hall i (List.mem_cons_self i rest)
        simp only [addInputs, if_neg hi]
        apply (ih (insert i seen)).mpr
        rw [List.nodup_cons] at hnd
        refine ⟨hnd.2, ?_⟩
        intro x hx hins
        rcases Finset.mem_insert.mp hins with rfl | hxs
        · exact hnd.1 hx
        · exact hall x (List.mem_cons_of_mem i hx) hxs

lemma addInputs_ok_val (l : List String) (seen s : Finset String)
    (h : addInputs seen l = Except.ok s) : s = seen ∪ l.toFinset := by
  induction l generalizing seen with
  | nil =>
      simp only [addInputs] at h
      cases h
      simp
  | cons i rest ih =>
      simp only [addInputs] at h
      by_cases hi : i ∈ seen
      · rw [if_pos hi] at h; cases h
      · rw [if_neg hi] at h
        rw [ih (insert i seen) h, List.toFinset_cons]
        ext x
        simp only [Finset.mem_union, Finset.mem_insert]
        tauto

lemma collectInputs_ok_iff (ms : List MpcParticipantSettings) (seen : Finset String) :
    (∃ s, collectInputs seen ms = Except.ok s) ↔
      (ms.flatMap MpcParticipantSettings.inputs).Nodup ∧
      ∀ x ∈ ms.flatMap MpcParticipantSettings.inputs, x ∉ seen := by
  induction ms generalizing seen with
  | nil => simp [collectInputs]
  | cons p ps ih =>
      rw [List.flatMap_cons]
      constructor
      · rintro ⟨s, hs⟩
        simp only [collectInputs] at hs
        cases hadd : addInputs seen p.inputs with
        | error e => rw [hadd] at hs; cases hs
        | ok s1 =>
            rw [hadd] at hs
            have h1 := (addInputs_ok_iff p.inputs seen).mp ⟨s1, hadd⟩
            have hval := addInputs_ok_val p.inputs seen s1 hadd
            have h2 := (ih s1).mp ⟨s, hs⟩
            rw [List.nodup_append]
            refine ⟨⟨h1.1, h2.1, ?_⟩, ?_⟩
            · intro a ha1 ha2
              exact h2.2 a ha2
                (by rw [hval]; exact Finset.mem_union_right seen (List.mem_toFinset.mpr ha1))
            · intro x hx
              rcases List.mem_append.mp hx with hx | hx
              · exact h1.2 x hx
              · intro hxs
                exact h2.2 x hx (by rw [hval]; exact Finset.mem_union_left _ hxs)
      · rintro ⟨hnd, hall⟩
        rw [List.nodup_append] at hnd
        obtain ⟨s1, hs1⟩ := (addInputs_ok_iff p.inputs seen).mpr
          ⟨hnd.1, fun x hx => hall x (List.mem_append_left _ hx)⟩
        have hval := addInputs_ok_val p.inputs seen s1 hs1
        simp only [collectInputs, hs1]
        apply (ih s1).mpr
        refine ⟨hnd.2.1, ?_⟩
        intro x hx hxs1
        rw [hval] at hxs1
        rcases Finset.mem_union.mp hxs1 with hxs | hxt
        · exact hall x (List.mem_append_right _ hx) hxs
        · exact hnd.2.2 (List.mem_toFinset.mp hxt) hx

lemma collectInputs_ok_val (ms : List MpcParticipantSettings) (seen s : Finset String)
    (h : collectInputs seen ms = Except.ok s) :
    s = seen ∪ (ms.flatMap MpcParticipantSettings.inputs).toFinset := by
  induction ms generalizing seen with
  | nil =>
      simp only [collectInputs] at h
      cases h
      simp
  | cons p ps ih =>
      simp only [collectInputs] at h
      cases hadd : addInputs seen p.inputs with
      | error e => rw [hadd] at h; cases h
      | ok s1 =>
          rw [hadd] at h
          rw [ih s1 h, addInputs_ok_val p.inputs seen s1 hadd,
            List.flatMap_cons, List.toFinset_append, Finset.union_assoc]

lemma firstBadOutputIn_none_iff (co : Finset String) (l : List String) :
    firstBadOutputIn co l = none ↔ ∀ o ∈ l, o ∈ co := by
  induction l with
  | nil => simp [firstBadOutputIn]
  | cons o rest ih =>
      by_cases ho : o ∈ co
      · simp [firstBadOutputIn, ho, ih]
      · simp [firstBadOutputIn, ho]

lemma firstBadOutputIn_some (co : Finset String) (l : List String) (o : String)
    (h : firstBadOutputIn co l = some o) : o ∈ l ∧ o ∉ co := by
  induction l with
  | nil => cases h
  | cons x rest ih =>
      simp only [firstBadOutputIn] at h
      by_cases hx : x ∈ co
      · rw [if_pos hx] at h
        obtain ⟨h1, h2⟩ := ih h
        exact ⟨List.mem_cons_of_mem x h1, h2⟩
      · rw [if_neg hx] at h
        cases h
        exact ⟨List.mem_cons_self o rest, hx⟩

lemma firstBadOutput_none_iff (co : Finset String) (ms : List MpcParticipantSettings) :
    firstBadOutput co ms = none ↔ ∀ p ∈ ms, ∀ o ∈ p.outputs, o ∈ co := by
  induction ms with
  | nil => simp [firstBadOutput]
  | cons p ps ih =>
      simp only [firstBadOutput]
      cases hb : firstBadOutputIn co p.outputs with
      | some o =>
          constructor
          · intro h; cases h
          · intro h
            exfalso
            have hnone : firstBadOutputIn co p.outputs = none :=
              (firstBadOutputIn_none_iff co p.outputs).mpr (h p (List.mem_cons_self p ps))
            rw [hb] at hnone; cases hnone
      | none =>
          rw [ih]
          constructor
          · intro h q hq
            rcases List.mem_cons.mp hq with rfl | hq
            · exact (firstBadOutputIn_none_iff co q.outputs).mp hb
            · exact h q hq
          · intro h q hq
            exact h q (List.mem_cons_of_mem p hq)

lemma firstBadOutput_some (co : Finset String) (ms : List MpcParticipantSettings)
    (o : String) (h : firstBadOutput co ms = some o) :
    ∃ p ∈ ms, o ∈ p.outputs ∧ o ∉ co := by
  induction ms with
  | nil => cases h
  | cons p ps ih =>
      simp only [firstBadOutput] at h
      cases hb : firstBadOutputIn co p.outputs with
      | some o' =>
          rw [hb] at h
          cases h
          exact ⟨p, List.mem_cons_self p ps, firstBadOutputIn_some co p.outputs o hb⟩
      | none =>
          rw [hb] at h
          obtain ⟨q, hq, h2⟩ := ih h
          exact ⟨q, List.mem_cons_of_mem p hq, h2⟩

lemma findParticipantFrom_mem (name : String) (ms : List MpcParticipantSettings)
    (k : Nat) (p : MpcParticipantSettings)
    (h : findParticipantFrom name ms k = some p) : p ∈ ms := by
  induction ms generalizing k with
  | nil => cases h
  | cons q ps ih =>
      simp only [findParticipantFrom] at h
      by_cases hq : q.name.getD (toString k) = name
      · rw [if_pos hq] at h
        cases h
        exact List.mem_cons_self p ps
      · rw [if_neg hq] at h
        exact List.mem_cons_of_mem q (ih (k + 1) h)

lemma checkSettingsValid_error_iff (c : Circuit) (ms : List MpcParticipantSettings)
    (name : String) (inputKeys : List String) :
    (checkSettingsValid c ms name inputKeys).isSome = true ↔
      shouldError c ms name inputKeys := by
  unfold checkSettingsValid shouldError otherErrorConds
  cases hcol : collectInputs ∅ ms with
  | error e =>
      simp only [hcol, Option.isSome_some, true_iff]
      left
      intro hnd
      obtain ⟨s, hs⟩ := (collectInputs_ok_iff ms ∅).mpr ⟨hnd, by simp⟩
      rw [hcol] at hs
      cases hs
  | ok s =>
      have hflat := (collectInputs_ok_iff ms ∅).mp ⟨s, hcol⟩
      have hnd : (ms.flatMap MpcParticipantSettings.inputs).Nodup := hflat.1
      have hval : s = (ms.flatMap MpcParticipantSettings.inputs).toFinset := by
        simpa using collectInputs_ok_val ms ∅ s hcol
      simp only [hcol]
      rw [or_iff_right (not_not_intro hnd)]
      by_cases hset : areSetsEqual s c.inputNames.toFinset = true
      · have hseq : (ms.flatMap MpcParticipantSettings.inputs).toFinset = c.inputNames.toFinset :=
          hval ▸ (areSetsEqual_iff _ _).mp hset
        rw [hset]
        simp only [Bool.not_true, Bool.false_eq_true, if_false]
        rw [or_iff_right (not_not_intro hseq)]
        cases hbad : firstBadOutput c.outputNames.toFinset ms with
        | some o =>
            simp only [Option.isSome_some, true_iff]
            left
            obtain ⟨p, hp, h1, h2⟩ := firstBadOutput_some _ _ _ hbad
            exact ⟨p, hp, o, h1, h2⟩
        | none =>
            have hout : ∀ p ∈ ms, ∀ o ∈ p.outputs, o ∈ c.outputNames.toFinset :=
              (firstBadOutput_none_iff _ _).mp hbad
            rw [or_iff_right (a := ∃ p ∈ ms, ∃ o ∈ p.outputs, o ∉ c.outputNames.toFinset)]
            · cases hfind : findParticipantFrom name ms 0 with
              | none => simp [hfind]
              | some p =>
                  simp only [hfind]
                  by_cases hkeys : areSetsEqual inputKeys.toFinset p.inputs.toFinset = true
                  · have hkeq : inputKeys.toFinset = p.inputs.toFinset :=
                      (areSetsEqual_iff _ _).mp hkeys
                    rw [hkeys]
                    simp only [Bool.not_true, Bool.false_eq_true, if_false,
                      Option.isSome_none, false_iff]
                    intro h
                    rcases h with h | h
                    · cases h
                    · obtain ⟨q, _, hq2, hq3⟩ := h
                      cases hq2
                      exact hq3 hkeq
                  · have hkne : inputKeys.toFinset ≠ p.inputs.toFinset := fun h =>
                      hkeys ((areSetsEqual_iff _ _).mpr h)
                    have hkeys' : areSetsEqual inputKeys.toFinset p.inputs.toFinset = false :=
                      Bool.eq_false_iff.mpr hkeys
                    rw [hkeys']
                    simp only [Bool.not_false, if_true, Option.isSome_some, true_iff]
                    right
                    exact ⟨p, findParticipantFrom_mem name ms 0 p hfind, rfl, hkne⟩
            · intro h
              obtain ⟨p, hp, o, ho, hco⟩ := h
              exact hco (hout p hp o ho)
      · have hne : (ms.flatMap MpcParticipantSettings.inputs).toFinset ≠ c.inputNames.toFinset :=
          fun h => hset (by rw [hval]; exact (areSetsEqual_iff _ _).mpr h)
        have hset' : areSetsEqual s c.inputNames.toFinset = false := Bool.eq_false_iff.mpr hset
        rw [hset']
        simp only [Bool.not_false, if_true, Option.isSome_some, true_iff]
        left
        exact hne

end MPC

namespace MPC

/-- The `a + b` example circuit of the test suite: inputs `a`, `b`
(object key order `b`, `a`), output `c`. -/
def aPlusB : Circuit :=
  { inputNames := ["b", "a"], outputNames := ["c"] }

/-- The participants of the concrete scenario: alice provides `a`, bob
provides `b`, both read `c`. -/
def aliceBobSettings : List MpcParticipantSettings :=
  [ { name := some "alice", inputs := ["a"], outputs := ["c"] },
    { name := some "bob", inputs := ["b"], outputs := ["c"] } ]

/-- A circuit with the single input `a` and no outputs, for the
counterexample. -/
def dupCircuit : Circuit :=
  { inputNames := ["a"], outputNames := [] }

/-- A single participant that lists the input `a` twice. -/
def dupSettings : List MpcParticipantSettings :=
  [ { name := some "p", inputs := ["a", "a"], outputs := [] } ]

/-- C9 counterexample: with one participant listing input `a` twice and a
circuit whose input set is exactly `{a}`, no input name is claimed by
more than one participant and conditions (2)–(5) of the claim all fail,
so the claim predicts `undefined`; yet `checkSettingsValid` returns an
error (`Duplicate input: a`), because the duplicate check runs over the
concatenation of all input lists, including repeats within a single
participant. -/
theorem checkSettingsValid_claim_counterexample :
    (checkSettingsValid dupCircuit dupSettings "p" ["a"]).isSome = true ∧
    checkSettingsValid dupCircuit dupSettings "p" ["a"] =
      some (CheckError.duplicateInput "a") ∧
    ¬ claimShouldError dupCircuit dupSettings "p" ["a"] := by
  refine ⟨rfl, rfl, ?_⟩
  unfold claimShouldError dupAcrossParticipants otherErrorConds
  decide

/-- C9 amended: `checkSettingsValid` returns an error iff (1) some input
name occurs more than once across the concatenation of all participants'
input lists, or (2) the union of the participants' input names differs
from the circuit's input-name set, or (3) some participant output name is
not among the circuit's output names, or (4) the caller's name matches no
participant, or (5) the supplied input-key set differs from the calling
participant's declared input-name set; and in the concrete scenario,
calling as alice with input keys `{a}` succeeds while `{}` and `{a, x}`
are rejected. -/
theorem checkSettingsValid_spec :
    (∀ (c : Circuit) (ms : List MpcParticipantSettings) (name : String)
        (inputKeys : List String),
      (checkSettingsValid c ms name inputKeys).isSome = true ↔
        shouldError c ms name inputKeys) ∧
    checkSettingsValid aPlusB aliceBobSettings "alice" ["a"] = none ∧
    (checkSettingsValid aPlusB aliceBobSettings "alice" []).isSome = true ∧
    (checkSettingsValid aPlusB aliceBobSettings "alice" ["a", "x"]).isSome = true :=
  ⟨checkSettingsValid_error_iff, rfl, rfl, rfl⟩

end MPC
